import Mathlib

/-!
# Verification of `compute_peaks` (src/wasm/peaks.cpp)

Shallow embedding of the single exported function

    void compute_peaks(const float* samples, int len, int buckets, int16_t* outMinMax)

Modelling choices:
* C `float` sample values are modelled by `F32`: either NaN or an exact
  rational value.  IEEE comparisons on floats are exact, and any comparison
  involving NaN is false; `F32.lt` / `F32.gt` mirror this.
* Every floating-point operation the source performs is modelled with its
  IEEE-754 rounding: `roundPrec` implements round-to-nearest, ties to even,
  at a given precision with subnormal support, instantiated as `roundF64`
  (binary64, for `len/buckets` and `bucket * samplesPerBucket`) and
  `roundF32` (binary32, for `minVal * 32768.0f` / `maxVal * 32767.0f`).
  The `int → double` conversions are exact (operands < 2^31 < 2^53).
* C `int` parameters are modelled as unbounded `Int` (the claims do not
  concern 32-bit overflow); theorems whose content depends on the `int`
  width carry `≤ 2^31` hypotheses.
* The memory behind the two pointers is modelled as total functions
  `Nat → F32` (read-only samples) and `Nat → Int` (output buffer); a null
  pointer is `Option.none`.  The stores the function performs are made
  explicit as a list of (index, value) write events, folded over the initial
  buffer, so that "writes exactly these cells" and "reads exactly these
  indices" are directly statable.
* `static_cast<int32_t>` / `static_cast<int>` of a floating-point value
  rounds toward zero (`ratTrunc`, computed as `qtrunc`).  NaN never reaches
  these casts (the running min/max are never NaN); the NaN branch of
  `scaleCast` is fixed to `0` arbitrarily.
* The narrowing `static_cast<int16_t>` store is modelled as wrapping two's
  complement (`toInt16`).
-/

set_option maxRecDepth 8000

/-- A C `float` value: NaN or an exact (finite) rational. -/
inductive F32 where
  | nan : F32
  | val : ℚ → F32
deriving DecidableEq

namespace F32

/-- IEEE `<` on floats: false whenever either operand is NaN. -/
def lt : F32 → F32 → Bool
  | val a, val b => a < b
  | _, _ => false

/-- IEEE `>` on floats: false whenever either operand is NaN. -/
def gt : F32 → F32 → Bool
  | val a, val b => b < a
  | _, _ => false

end F32

/-- Truncation toward zero of a rational, the C semantics of
`static_cast<int32_t>` / `static_cast<int>` on a floating-point value. -/
def ratTrunc (q : ℚ) : ℤ := if 0 ≤ q then ⌊q⌋ else ⌈q⌉

/-! ### Exact IEEE-754 round-to-nearest-even over ℚ

The two places the source rounds are `double(len) / double(buckets)` together
with `bucket * samplesPerBucket` (binary64) and `minVal * 32768.0f` /
`maxVal * 32767.0f` (binary32).  `roundPrec p eminE` rounds an exact rational
to the nearest number of the form `k * 2^E` where
`E = max(exponent - (p-1), eminE)`, ties to even — exactly IEEE round-to-
nearest-even with `p` significand bits including subnormals (`eminE` is the
exponent of the least subnormal: −149 for binary32, −1074 for binary64).
Overflow to infinity is not modelled: the rounded value stays finite; in this
program the only products that can overflow feed the `int32` cast whose
result is clamped into [−32768, 32767] immediately, where the saturated cast
of an infinity and the truncated huge finite value agree.  The integer
operands (`bucket`, `bucket + 1`, `len`, `buckets`, all below 2^31) convert
to binary64 exactly, so only the explicitly rounded operations round.
Everything is computed on numerators/denominators with primitive integer
operations so that concrete instances evaluate inside the kernel. -/

/-- floor of log2 by structural recursion on a fuel argument
(`lg2Aux n n` is correct for every positive `n` since `n < 2^n`). -/
def lg2Aux : ℕ → ℕ → ℕ
  | 0, _ => 0
  | fuel + 1, n => if 2 ≤ n then lg2Aux fuel (n / 2) + 1 else 0

def lg2 (n : ℕ) : ℕ := lg2Aux n n

/-- Round `n / d` (`d > 0`) to the nearest integer, ties to even. -/
def rndiv (n d : ℤ) : ℤ :=
  let q := n / d
  let r := n - q * d
  if 2 * r < d then q
  else if d < 2 * r then q + 1
  else if q % 2 = 0 then q else q + 1

/-- floor of log2 of the positive rational `n / d`. -/
def qlog2 (n d : ℕ) : ℤ :=
  let L : ℤ := (lg2 n : ℤ) - (lg2 d : ℤ)
  if 0 ≤ L then (if d * 2 ^ L.toNat ≤ n then L else L - 1)
  else (if d ≤ n * 2 ^ (-L).toNat then L else L - 1)

/-- The exponent of the rounding grid for `x`: `max(exponent - (p-1), eminE)`
(the second branch is the subnormal regime). -/
def gridExp (p : ℕ) (eminE : ℤ) (x : ℚ) : ℤ :=
  max (qlog2 x.num.natAbs x.den - ((p : ℤ) - 1)) eminE

/-- IEEE round to nearest, ties to even, with `p` significand bits and least
grid exponent `eminE`: the nearest multiple of `2 ^ gridExp p eminE x`. -/
def roundPrec (p : ℕ) (eminE : ℤ) (x : ℚ) : ℚ :=
  if x = 0 then 0 else
    if 0 ≤ gridExp p eminE x then
      ((rndiv x.num ((x.den : ℤ) * 2 ^ (gridExp p eminE x).toNat))
        * 2 ^ (gridExp p eminE x).toNat : ℤ)
    else
      mkRat (rndiv (x.num * 2 ^ (-(gridExp p eminE x)).toNat) (x.den : ℤ))
        (2 ^ (-(gridExp p eminE x)).toNat)

/-- binary64 rounding (a C `double` operation result). -/
def roundF64 (x : ℚ) : ℚ := roundPrec 53 (-1074) x

/-- binary32 rounding (a C `float` operation result). -/
def roundF32 (x : ℚ) : ℚ := roundPrec 24 (-149) x

/-- Exact rational product computed on numerators/denominators (kernel-
computable form of `x * y`; see `mulQ_eq`). -/
def mulQ (x y : ℚ) : ℚ := mkRat (x.num * y.num) (x.den * y.den)

/-- Truncation toward zero computed on the numerator/denominator
representation (kernel-computable form of `ratTrunc`; see `qtrunc_eq`). -/
def qtrunc (x : ℚ) : ℤ := x.num.tdiv (x.den : ℤ)

/-- `static_cast<int32_t>(v * c)` for a float `v` and a float constant `c`
(`32768.0f` resp. `32767.0f` in the source): the float product rounds to
binary32, then the cast truncates toward zero.  The NaN branch is arbitrary
(the running min/max never become NaN, so the cast never sees NaN). -/
def scaleCast (c : ℤ) : F32 → ℤ
  | F32.nan => 0
  | F32.val q => qtrunc (roundF32 (mulQ q (c : ℚ)))

/-- `std::min<int32_t>(32767, std::max<int32_t>(-32768, x))`. -/
def clamp16 (x : ℤ) : ℤ := min 32767 (max (-32768) x)

/-- The narrowing `static_cast<int16_t>` store, as wrapping two's complement. -/
def toInt16 (x : ℤ) : ℤ := (x + 32768) % 65536 - 32768

/-- `const double samplesPerBucket = static_cast<double>(len) / static_cast<double>(buckets)`:
the two `int → double` conversions are exact (`len`, `buckets` < 2^31 < 2^53)
and the division rounds once to binary64. -/
def samplesPerBucket (len buckets : ℕ) : ℚ :=
  roundF64 (mkRat (len : ℤ) buckets)

/-- `static_cast<int>(bucket * samplesPerBucket)`: the `int → double`
conversion of `bucket` is exact, the product rounds to binary64, the cast
truncates toward zero (the value is nonnegative, so `.toNat` is lossless). -/
def startIndex (len buckets b : ℕ) : ℕ :=
  (qtrunc (roundF64 (mulQ (b : ℚ) (samplesPerBucket len buckets)))).toNat

/-- `endIndex` after its two corrections: the raw truncation
`static_cast<int>((bucket + 1) * samplesPerBucket)` (again `bucket + 1`
converts exactly and the product rounds once), forced up to
`startIndex + 1` when `endIndex <= startIndex`, then clamped down to `len`. -/
def endIndex (len buckets b : ℕ) : ℕ :=
  let e0 := (qtrunc (roundF64 (mulQ ((b + 1 : ℕ) : ℚ) (samplesPerBucket len buckets)))).toNat
  let e1 := if e0 ≤ startIndex len buckets b then startIndex len buckets b + 1 else e0
  if e1 > len then len else e1

/-- The sample indices the inner loop of bucket `b` reads, in order:
`startIndex, startIndex+1, ..., endIndex-1`. -/
def bucketReads (len buckets b : ℕ) : List ℕ :=
  List.range' (startIndex len buckets b)
    (endIndex len buckets b - startIndex len buckets b)

/-- One iteration of the scan loop body:
`value = samples[i]; if (value < minVal) minVal = value; if (value > maxVal) maxVal = value;` -/
def scanStep (samples : ℕ → F32) (p : F32 × F32) (i : ℕ) : F32 × F32 :=
  let value := samples i
  (if F32.lt value p.1 then value else p.1,
   if F32.gt value p.2 then value else p.2)

/-- The running (minVal, maxVal) of bucket `b` after its scan loop, starting
from the initializers `minVal = 1.0f`, `maxVal = -1.0f`. -/
def bucketMinMax (samples : ℕ → F32) (len buckets b : ℕ) : F32 × F32 :=
  (bucketReads len buckets b).foldl (scanStep samples) (F32.val 1, F32.val (-1))

/-- The two stores bucket `b` performs, in order: index `bucket * 2` receives
the scaled/clamped minimum, index `bucket * 2 + 1` the scaled/clamped
maximum. -/
def bucketWrites (samples : ℕ → F32) (len buckets b : ℕ) : List (ℕ × ℤ) :=
  [(b * 2, toInt16 (clamp16 (scaleCast 32768 (bucketMinMax samples len buckets b).1))),
   (b * 2 + 1, toInt16 (clamp16 (scaleCast 32767 (bucketMinMax samples len buckets b).2)))]

/-- All stores of the outer loop over `bucket = 0, ..., buckets-1`, in
program order. -/
def peakWrites (samples : ℕ → F32) (len buckets : ℕ) : List (ℕ × ℤ) :=
  (List.range buckets).flatMap (bucketWrites samples len buckets)

/-- All sample indices the function reads, in program order. -/
def peakReads (len buckets : ℕ) : List ℕ :=
  (List.range buckets).flatMap (bucketReads len buckets)

/-- Replay a list of write events over an initial buffer. -/
def applyWrites (out : ℕ → ℤ) (ws : List (ℕ × ℤ)) : ℕ → ℤ :=
  ws.foldl (fun f w => Function.update f w.1 w.2) out

/-- The whole function.  A null pointer is `none`.  The result is the final
contents of the output buffer (unchanged on the guard path). -/
def compute_peaks (samples : Option (ℕ → F32)) (len buckets : ℤ)
    (outMinMax : Option (ℕ → ℤ)) : Option (ℕ → ℤ) :=
  match samples, outMinMax with
  | some smp, some out =>
      if len ≤ 0 ∨ buckets ≤ 0 then some out
      else some (applyWrites out (peakWrites smp len.toNat buckets.toNat))
  | _, out => out

/-! ## Helper lemmas: write events -/

theorem map_fst_bucketWrites (samples : ℕ → F32) (len buckets b : ℕ) :
    (bucketWrites samples len buckets b).map Prod.fst = [b * 2, b * 2 + 1] := rfl

theorem flatMap_range_pairs (n : ℕ) :
    ((List.range n).flatMap fun b => [b * 2, b * 2 + 1]) = List.range (n * 2) := by
  induction n with
  | zero => rfl
  | succ m ih =>
      rw [List.range_succ, List.flatMap_append, ih]
      have h1 : (m + 1) * 2 = m * 2 + 1 + 1 := by ring
      rw [h1, List.range_succ, List.range_succ]
      simp

theorem map_fst_peakWrites (samples : ℕ → F32) (len buckets : ℕ) :
    (peakWrites samples len buckets).map Prod.fst = List.range (buckets * 2) := by
  rw [peakWrites.eq_def, List.map_flatMap]
  simp only [map_fst_bucketWrites]
  exact flatMap_range_pairs buckets

theorem nodup_map_fst_peakWrites (samples : ℕ → F32) (len buckets : ℕ) :
    ((peakWrites samples len buckets).map Prod.fst).Nodup := by
  rw [map_fst_peakWrites]; exact List.nodup_range _

theorem applyWrites_not_mem (out : ℕ → ℤ) (ws : List (ℕ × ℤ)) (i : ℕ)
    (h : i ∉ ws.map Prod.fst) : applyWrites out ws i = out i := by
  induction ws generalizing out with
  | nil => rfl
  | cons w t ih =>
      simp only [List.map_cons, List.mem_cons, not_or] at h
      rw [applyWrites, List.foldl_cons, ← applyWrites, ih _ h.2]
      exact Function.update_noteq h.1 _ _

theorem applyWrites_mem_nodup (out : ℕ → ℤ) (ws : List (ℕ × ℤ)) (i : ℕ) (v : ℤ)
    (hnd : (ws.map Prod.fst).Nodup) (hm : (i, v) ∈ ws) :
    applyWrites out ws i = v := by
  induction ws generalizing out with
  | nil => cases hm
  | cons w t ih =>
      simp only [List.map_cons, List.nodup_cons] at hnd
      rcases List.mem_cons.1 hm with h | h
      · subst h
        rw [applyWrites, List.foldl_cons, ← applyWrites,
          applyWrites_not_mem _ _ _ hnd.1, Function.update_same]
      · rw [applyWrites, List.foldl_cons, ← applyWrites]
        exact ih _ hnd.2 h

theorem mem_peakWrites_min (samples : ℕ → F32) (len buckets b : ℕ)
    (hb : b < buckets) :
    (b * 2, toInt16 (clamp16 (scaleCast 32768 (bucketMinMax samples len buckets b).1)))
      ∈ peakWrites samples len buckets := by
  exact List.mem_flatMap.2 ⟨b, List.mem_range.2 hb, by simp [bucketWrites]⟩

theorem mem_peakWrites_max (samples : ℕ → F32) (len buckets b : ℕ)
    (hb : b < buckets) :
    (b * 2 + 1, toInt16 (clamp16 (scaleCast 32767 (bucketMinMax samples len buckets b).2)))
      ∈ peakWrites samples len buckets := by
  exact List.mem_flatMap.2 ⟨b, List.mem_range.2 hb, by simp [bucketWrites]⟩

/-- The final buffer holds, at index `b * 2`, exactly the value bucket `b`
stores there. -/
theorem final_at_min (out : ℕ → ℤ) (samples : ℕ → F32) (len buckets b : ℕ)
    (hb : b < buckets) :
    applyWrites out (peakWrites samples len buckets) (b * 2)
      = toInt16 (clamp16 (scaleCast 32768 (bucketMinMax samples len buckets b).1)) :=
  applyWrites_mem_nodup _ _ _ _ (nodup_map_fst_peakWrites _ _ _)
    (mem_peakWrites_min samples len buckets b hb)

/-- The final buffer holds, at index `b * 2 + 1`, exactly the value bucket `b`
stores there. -/
theorem final_at_max (out : ℕ → ℤ) (samples : ℕ → F32) (len buckets b : ℕ)
    (hb : b < buckets) :
    applyWrites out (peakWrites samples len buckets) (b * 2 + 1)
      = toInt16 (clamp16 (scaleCast 32767 (bucketMinMax samples len buckets b).2)) :=
  applyWrites_mem_nodup _ _ _ _ (nodup_map_fst_peakWrites _ _ _)
    (mem_peakWrites_max samples len buckets b hb)

/-! ## Helper lemmas: clamp and narrowing store -/

theorem clamp16_le (x : ℤ) : clamp16 x ≤ 32767 := min_le_left _ _

theorem le_clamp16 (x : ℤ) : -32768 ≤ clamp16 x :=
  le_min (by norm_num) (le_max_left _ _)

theorem toInt16_of_range (y : ℤ) (h1 : -32768 ≤ y) (h2 : y ≤ 32767) :
    toInt16 y = y := by
  rw [toInt16, Int.emod_eq_of_lt (by omega) (by omega)]; omega

/-- The clamp puts the value in 16-bit range, so the narrowing store does not
wrap. -/
theorem toInt16_clamp16 (x : ℤ) : toInt16 (clamp16 x) = clamp16 x :=
  toInt16_of_range _ (le_clamp16 x) (clamp16_le x)

/-! ## Helper lemmas: the scan loop -/

theorem scanStep_nan (samples : ℕ → F32) (p : F32 × F32) (i : ℕ)
    (h : samples i = F32.nan) : scanStep samples p i = p := by
  obtain ⟨m, x⟩ := p
  cases m <;> cases x <;> simp [scanStep, h, F32.lt, F32.gt]

theorem foldl_scanStep_nan (samples : ℕ → F32) (l : List ℕ)
    (h : ∀ i ∈ l, samples i = F32.nan) (p : F32 × F32) :
    l.foldl (scanStep samples) p = p := by
  induction l generalizing p with
  | nil => rfl
  | cons i t ih =>
      rw [List.foldl_cons, scanStep_nan samples p i (h i (List.mem_cons_self i t))]
      exact ih (fun j hj => h j (List.mem_cons_of_mem i hj)) p

theorem foldl_scanStep_congr (f g : ℕ → F32) (l : List ℕ)
    (h : ∀ i ∈ l, f i = g i) (p : F32 × F32) :
    l.foldl (scanStep f) p = l.foldl (scanStep g) p := by
  induction l generalizing p with
  | nil => rfl
  | cons i t ih =>
      rw [List.foldl_cons, List.foldl_cons,
        show scanStep f p i = scanStep g p i by
          simp [scanStep, h i (List.mem_cons_self i t)]]
      exact ih (fun j hj => h j (List.mem_cons_of_mem i hj)) _

/-- Invariant of the scan loop: started at finite bounds `(a, b)`, it ends at
finite bounds `(qm, qx)` with `qm ≤ a`, `b ≤ qx`, and every non-NaN sample it
visited lies between `qm` and `qx`. -/
theorem foldl_scanStep_bounds (samples : ℕ → F32) (l : List ℕ) :
    ∀ a b : ℚ, ∃ qm qx : ℚ,
      l.foldl (scanStep samples) (F32.val a, F32.val b) = (F32.val qm, F32.val qx) ∧
      qm ≤ a ∧ b ≤ qx ∧
      ∀ i ∈ l, ∀ q : ℚ, samples i = F32.val q → qm ≤ q ∧ q ≤ qx := by
  induction l with
  | nil =>
      intro a b
      exact ⟨a, b, rfl, le_refl _, le_refl _, by simp⟩
  | cons i t ih =>
      intro a b
      rcases hsi : samples i with _ | v
      · obtain ⟨qm, qx, heq, hma, hbx, hmem⟩ := ih a b
        refine ⟨qm, qx, ?_, hma, hbx, ?_⟩
        · rw [List.foldl_cons, scanStep_nan samples _ i hsi]
          exact heq
        · intro j hj q hq
          rcases List.mem_cons.1 hj with rfl | hj'
          · rw [hsi] at hq; cases hq
          · exact hmem j hj' q hq
      · have hstep : scanStep samples (F32.val a, F32.val b) i
            = (F32.val (if v < a then v else a), F32.val (if b < v then v else b)) := by
          simp only [scanStep, hsi, F32.lt, F32.gt]
          by_cases h1 : v < a <;> by_cases h2 : b < v <;> simp [h1, h2]
        have hma' : (if v < a then v else a) ≤ a := by
          by_cases h1 : v < a <;> simp [h1, le_of_lt]
        have hmv' : (if v < a then v else a) ≤ v := by
          by_cases h1 : v < a <;> simp [h1, le_of_not_lt]
        have hbx' : b ≤ (if b < v then v else b) := by
          by_cases h2 : b < v <;> simp [h2, le_of_lt]
        have hvx' : v ≤ (if b < v then v else b) := by
          by_cases h2 : b < v <;> simp [h2, le_of_not_lt]
        obtain ⟨qm, qx, heq, hma, hbx, hmem⟩ :=
          ih (if v < a then v else a) (if b < v then v else b)
        refine ⟨qm, qx, ?_, le_trans hma hma', le_trans hbx' hbx, ?_⟩
        · rw [List.foldl_cons, hstep]
          exact heq
        · intro j hj q hq
          rcases List.mem_cons.1 hj with rfl | hj'
          · rw [hsi] at hq
            cases hq
            exact ⟨le_trans hma hmv', le_trans hvx' hbx⟩
          · exact hmem j hj' q hq

/-- The running minimum and maximum of a bucket are never NaN, stay within
the initial bounds `minVal ≤ 1`, `-1 ≤ maxVal`, and bound every non-NaN
sample of the bucket. -/
theorem bucketMinMax_bounds (samples : ℕ → F32) (len buckets b : ℕ) :
    ∃ qm qx : ℚ,
      bucketMinMax samples len buckets b = (F32.val qm, F32.val qx) ∧
      qm ≤ 1 ∧ -1 ≤ qx ∧
      ∀ i ∈ bucketReads len buckets b, ∀ q : ℚ,
        samples i = F32.val q → qm ≤ q ∧ q ≤ qx :=
  foldl_scanStep_bounds samples (bucketReads len buckets b) 1 (-1)

/-! ## Helper lemmas: truncation toward zero -/

theorem ratTrunc_intCast_div_natCast (n : ℤ) (d : ℕ) (hd : 0 < d) :
    ratTrunc ((n : ℚ) / (d : ℚ)) = n.tdiv d := by
  have hd0 : (0 : ℚ) < (d : ℚ) := by exact_mod_cast hd
  rcases le_or_lt 0 n with hn | hn
  · have hq : 0 ≤ (n : ℚ) / (d : ℚ) :=
      div_nonneg (by exact_mod_cast hn) hd0.le
    rw [ratTrunc, if_pos hq, Rat.floor_intCast_div_natCast,
      Int.tdiv_eq_ediv hn (by positivity)]
  · have hq : ¬ 0 ≤ (n : ℚ) / (d : ℚ) := by
      push_neg
      exact div_neg_of_neg_of_pos (by exact_mod_cast hn) hd0
    rw [ratTrunc, if_neg hq]
    have hceil : ⌈(n : ℚ) / (d : ℚ)⌉ = -⌊((-n : ℤ) : ℚ) / (d : ℚ)⌋ := by
      rw [← neg_neg (⌈(n : ℚ) / (d : ℚ)⌉), ← Int.floor_neg]
      congr 1
      push_cast
      ring_nf
    rw [hceil, Rat.floor_intCast_div_natCast,
      ← Int.tdiv_eq_ediv (by omega) (by positivity), Int.neg_tdiv, neg_neg]

/-- `qtrunc` computes `ratTrunc`. -/
theorem qtrunc_eq (x : ℚ) : qtrunc x = ratTrunc x := by
  conv_rhs => rw [← Rat.num_div_den x]
  rw [ratTrunc_intCast_div_natCast _ _ x.den_pos]
  rfl

/-- `mulQ` computes the rational product. -/
theorem mulQ_eq (x y : ℚ) : mulQ x y = x * y := by
  rw [mulQ, Rat.mkRat_eq_div]
  conv_rhs => rw [← Rat.num_div_den x, ← Rat.num_div_den y]
  rw [div_mul_div_comm]
  push_cast
  ring

/-- The truncating cast, expressed as the source computes it: round-toward-
zero of the binary32-rounded product. -/
theorem scaleCast_val (c : ℤ) (q : ℚ) :
    scaleCast c (F32.val q) = ratTrunc (roundF32 (q * (c : ℚ))) := by
  rw [scaleCast, mulQ_eq, qtrunc_eq]

theorem endIndex_le_len (len buckets b : ℕ) : endIndex len buckets b ≤ len := by
  rw [endIndex]
  split <;> split <;> omega

theorem mem_bucketReads_bounds (len buckets b r : ℕ)
    (hr : r ∈ bucketReads len buckets b) :
    r < len ∧ startIndex len buckets b ≤ r ∧ r < endIndex len buckets b := by
  rw [bucketReads] at hr
  have h := List.mem_range'_1.1 hr
  have he := endIndex_le_len len buckets b
  omega

/-! ## The claims -/

/-- C1: whenever `samples` is null, `outMinMax` is null, `len ≤ 0`, or
`buckets ≤ 0`, `compute_peaks` performs no work and returns with the output
buffer unchanged; no error is signalled. -/
theorem compute_peaks_invalid_noop (samples : Option (ℕ → F32))
    (len buckets : ℤ) (out : Option (ℕ → ℤ))
    (h : samples = none ∨ out = none ∨ len ≤ 0 ∨ buckets ≤ 0) :
    compute_peaks samples len buckets out = out := by
  rcases samples with _ | smp
  · rfl
  · rcases out with _ | o
    · rfl
    · have hcond : len ≤ 0 ∨ buckets ≤ 0 := by
        rcases h with h | h | h | h
        · exact absurd h (by simp)
        · exact absurd h (by simp)
        · exact Or.inl h
        · exact Or.inr h
      simp only [compute_peaks]
      rw [if_pos hcond]

/-- C1 witness: a call with `len = 0` returns the sentinel buffer untouched. -/
theorem compute_peaks_invalid_noop_witness :
    compute_peaks (some fun _ => F32.val 0) 0 1 (some fun _ => (5 : ℤ))
      = some fun _ => (5 : ℤ) :=
  compute_peaks_invalid_noop _ 0 1 _ (Or.inr (Or.inr (Or.inl (by norm_num))))

/-- C2: for every valid call, the function's store trace hits exactly the
indices `0, ..., buckets*2 - 1`, each exactly once and in increasing order,
and every sample index it reads is below `len`. -/
theorem compute_peaks_access_ranges (smp : ℕ → F32) (out : ℕ → ℤ)
    (len buckets : ℤ) (hl : 0 < len) (hb : 0 < buckets) :
    compute_peaks (some smp) len buckets (some out)
        = some (applyWrites out (peakWrites smp len.toNat buckets.toNat)) ∧
    (peakWrites smp len.toNat buckets.toNat).map Prod.fst
        = List.range (buckets.toNat * 2) ∧
    ∀ r ∈ peakReads len.toNat buckets.toNat, r < len.toNat := by
  refine ⟨?_, map_fst_peakWrites _ _ _, ?_⟩
  · simp only [compute_peaks]
    rw [if_neg (by omega)]
  · intro r hr
    obtain ⟨b, _, hrb⟩ := List.mem_flatMap.1 hr
    exact (mem_bucketReads_bounds _ _ _ _ hrb).1

/-- C2 witness: instantiation at a length-1 call. -/
theorem compute_peaks_access_ranges_witness :
    compute_peaks (some fun _ => F32.val 0) 1 1 (some fun _ => (0 : ℤ))
        = some (applyWrites (fun _ => (0 : ℤ))
            (peakWrites (fun _ => F32.val 0) (1 : ℤ).toNat (1 : ℤ).toNat)) ∧
    (peakWrites (fun _ => F32.val 0) (1 : ℤ).toNat (1 : ℤ).toNat).map Prod.fst
        = List.range ((1 : ℤ).toNat * 2) ∧
    ∀ r ∈ peakReads (1 : ℤ).toNat (1 : ℤ).toNat, r < (1 : ℤ).toNat :=
  compute_peaks_access_ranges (fun _ => F32.val 0) (fun _ => (0 : ℤ)) 1 1
    (by norm_num) (by norm_num)

/-- C3: on samples [0.0, 0.5, −0.5, 1.0, −1.0, 0.25] with `len = 6`,
`buckets = 2`, the output is [−16384, 16383, −32768, 32767]; bucket 0 scans
indices [0,3) and bucket 1 scans [3,6). -/
theorem compute_peaks_scenario1 :
    (compute_peaks
        (some fun i =>
          F32.val ([0, mkRat 1 2, mkRat (-1) 2, 1, -1, mkRat 1 4].getD i 0))
        6 2 (some fun _ => (0 : ℤ))).map (fun f => [f 0, f 1, f 2, f 3])
      = some [-16384, 16383, -32768, 32767] ∧
    bucketReads 6 2 0 = [0, 1, 2] ∧ bucketReads 6 2 1 = [3, 4, 5] := by
  decide

theorem rndiv_bounds (n d : ℤ) (hd : 0 < d) :
    2 * n - d ≤ 2 * rndiv n d * d ∧ 2 * rndiv n d * d ≤ 2 * n + d := by
  have hqr : d * (n / d) + n % d = n := Int.ediv_add_emod n d
  have hr0 : 0 ≤ n % d := Int.emod_nonneg n (ne_of_gt hd)
  have hrd : n % d < d := Int.emod_lt_of_pos n hd
  have hcomm : d * (n / d) = (n / d) * d := mul_comm _ _
  have hrr : n - (n / d) * d = n % d := by linarith
  rw [rndiv]
  split
  · next h => rw [hrr] at h; constructor <;> nlinarith
  · split
    · next h h' => rw [hrr] at h'; constructor <;> nlinarith
    · split
      · next h h' h'' =>
          rw [hrr] at h h'
          have ht : 2 * (n % d) = d := by omega
          constructor <;> nlinarith
      · next h h' h'' =>
          rw [hrr] at h h'
          have ht : 2 * (n % d) = d := by omega
          constructor <;> nlinarith

theorem rndiv_nonpos (n d : ℤ) (hd : 0 < d) (hn : n ≤ 0) : rndiv n d ≤ 0 := by
  obtain ⟨-, h2⟩ := rndiv_bounds n d hd
  nlinarith

theorem roundPrec_nonpos (p : ℕ) (eminE : ℤ) (x : ℚ) (hx : x ≤ 0) :
    roundPrec p eminE x ≤ 0 := by
  rw [roundPrec]
  split
  · exact le_refl 0
  · next hx0 =>
      have hn : x.num ≤ 0 := Rat.num_nonpos.2 hx
      split
      · next hE =>
          have hd : (0 : ℤ) < (x.den : ℤ) * 2 ^ (gridExp p eminE x).toNat := by
            positivity
          have hk := rndiv_nonpos x.num _ hd hn
          have hprod : rndiv x.num ((x.den : ℤ) * 2 ^ (gridExp p eminE x).toNat)
              * 2 ^ (gridExp p eminE x).toNat ≤ (0 : ℤ) :=
            mul_nonpos_of_nonpos_of_nonneg hk (by positivity)
          exact_mod_cast hprod
      · next hE =>
          rw [Rat.mkRat_eq_div]
          have hk := rndiv_nonpos (x.num * 2 ^ (-(gridExp p eminE x)).toNat)
            (x.den : ℤ) (by positivity)
            (mul_nonpos_of_nonpos_of_nonneg hn (by positivity))
          have hden : (0 : ℚ) ≤ ((2 ^ (-(gridExp p eminE x)).toNat : ℕ) : ℚ) := by
            positivity
          exact div_nonpos_of_nonpos_of_nonneg (by exact_mod_cast hk) hden

/-- C7: every value the function stores lies in [−32768, 32767], for
arbitrary samples (NaN and out-of-range values included): the scaled value
is clamped before the narrowing store, and on the clamped range the
narrowing store is the identity — no wraparound occurs. -/
theorem output_values_in_range (smp : ℕ → F32) (len buckets : ℕ) (w : ℕ × ℤ)
    (hw : w ∈ peakWrites smp len buckets) :
    (-32768 ≤ w.2 ∧ w.2 ≤ 32767) ∧ ∀ x : ℤ, toInt16 (clamp16 x) = clamp16 x := by
  obtain ⟨b, _, hwb⟩ := List.mem_flatMap.1 hw
  have hv : w.2 = toInt16 (clamp16 (scaleCast 32768 (bucketMinMax smp len buckets b).1))
      ∨ w.2 = toInt16 (clamp16 (scaleCast 32767 (bucketMinMax smp len buckets b).2)) := by
    rcases List.mem_cons.1 hwb with h | h
    · left
      rw [h]
    · right
      rcases List.mem_cons.1 h with h' | h'
      · rw [h']
      · cases h'
  rcases hv with h | h <;>
    · rw [h, toInt16_clamp16]
      exact ⟨⟨le_clamp16 _, clamp16_le _⟩, toInt16_clamp16⟩

/-- C7 witness: instantiation at the write (0, 32767) produced by the
out-of-range sample 2.0 (min initializer still 1.0, so both entries clamp
to 32767). -/
theorem output_values_in_range_witness :
    (-32768 ≤ ((0 : ℕ), (32767 : ℤ)).2 ∧ ((0 : ℕ), (32767 : ℤ)).2 ≤ 32767) ∧
    ∀ x : ℤ, toInt16 (clamp16 x) = clamp16 x :=
  output_values_in_range (fun _ => F32.val 2) 1 1 ((0 : ℕ), (32767 : ℤ))
    (by decide)

/-- C8: deterministic and write-only on the output buffer: for any two
initial buffers the final contents agree everywhere below `buckets * 2`, and
running the call a second time over its own output leaves the same contents
as a single run. -/
theorem compute_peaks_output_independent (smp : ℕ → F32) (len buckets : ℤ)
    (o1 o2 : ℕ → ℤ) (i : ℕ) (hl : 0 < len) (hb : 0 < buckets)
    (hi : i < buckets.toNat * 2) :
    (compute_peaks (some smp) len buckets (some o1)).map (fun f => f i)
      = (compute_peaks (some smp) len buckets (some o2)).map (fun f => f i) ∧
    (compute_peaks (some smp) len buckets
        (compute_peaks (some smp) len buckets (some o1))).map (fun f => f i)
      = (compute_peaks (some smp) len buckets (some o1)).map (fun f => f i) := by
  have hneg : ¬(len ≤ 0 ∨ buckets ≤ 0) := by omega
  have hunfold : ∀ o : ℕ → ℤ, compute_peaks (some smp) len buckets (some o)
      = some (applyWrites o (peakWrites smp len.toNat buckets.toNat)) := by
    intro o
    simp only [compute_peaks]
    rw [if_neg hneg]
  have hcover : i ∈ (peakWrites smp len.toNat buckets.toNat).map Prod.fst := by
    rw [map_fst_peakWrites]
    exact List.mem_range.2 hi
  obtain ⟨w, hwmem, hwi⟩ := List.mem_map.1 hcover
  have hval : ∀ o : ℕ → ℤ,
      applyWrites o (peakWrites smp len.toNat buckets.toNat) i = w.2 := by
    intro o
    have hmem : (i, w.2) ∈ peakWrites smp len.toNat buckets.toNat := by
      have : (i, w.2) = w := by
        rw [← hwi]
      rw [this]
      exact hwmem
    exact applyWrites_mem_nodup _ _ _ _ (nodup_map_fst_peakWrites _ _ _) hmem
  refine ⟨?_, ?_⟩
  · rw [hunfold o1, hunfold o2]
    simp only [Option.map_some']
    rw [hval o1, hval o2]
  · rw [hunfold o1, hunfold]
    simp only [Option.map_some']
    rw [hval, hval o1]

/-- C8 witness: instantiation at a length-1 call and two distinct sentinel
buffers. -/
theorem compute_peaks_output_independent_witness :
    (compute_peaks (some fun _ => F32.val 0) 1 1 (some fun _ => (7 : ℤ))).map
        (fun f => f 0)
      = (compute_peaks (some fun _ => F32.val 0) 1 1 (some fun _ => (9 : ℤ))).map
        (fun f => f 0) ∧
    (compute_peaks (some fun _ => F32.val 0) 1 1
        (compute_peaks (some fun _ => F32.val 0) 1 1 (some fun _ => (7 : ℤ)))).map
        (fun f => f 0)
      = (compute_peaks (some fun _ => F32.val 0) 1 1 (some fun _ => (7 : ℤ))).map
        (fun f => f 0) :=
  compute_peaks_output_independent (fun _ => F32.val 0) 1 1
    (fun _ => (7 : ℤ)) (fun _ => (9 : ℤ)) 0 (by norm_num) (by norm_num) (by decide)

/-- C9: per-bucket locality: the two entries bucket `b` contributes to the
final buffer depend only on the samples in its scan range — two sample
buffers agreeing there give identical entries at `b*2` and `b*2 + 1`. -/
theorem bucket_locality (smp1 smp2 : ℕ → F32) (out : ℕ → ℤ)
    (len buckets b : ℕ) (hb : b < buckets)
    (hagree : ∀ i ∈ bucketReads len buckets b, smp1 i = smp2 i) :
    applyWrites out (peakWrites smp1 len buckets) (b * 2)
      = applyWrites out (peakWrites smp2 len buckets) (b * 2) ∧
    applyWrites out (peakWrites smp1 len buckets) (b * 2 + 1)
      = applyWrites out (peakWrites smp2 len buckets) (b * 2 + 1) := by
  have hmm : bucketMinMax smp1 len buckets b = bucketMinMax smp2 len buckets b :=
    foldl_scanStep_congr smp1 smp2 _ hagree _
  constructor
  · rw [final_at_min out smp1 len buckets b hb,
      final_at_min out smp2 len buckets b hb, hmm]
  · rw [final_at_max out smp1 len buckets b hb,
      final_at_max out smp2 len buckets b hb, hmm]

/-- C9 witness: two sample buffers that agree on bucket 0's range [0, 1) but
differ at the unread index 1. -/
theorem bucket_locality_witness :
    applyWrites (fun _ => (0 : ℤ))
        (peakWrites (fun _ => F32.val 0) 1 1) (0 * 2)
      = applyWrites (fun _ => (0 : ℤ))
        (peakWrites (fun i => if i = 0 then F32.val 0 else F32.val 1) 1 1) (0 * 2) ∧
    applyWrites (fun _ => (0 : ℤ))
        (peakWrites (fun _ => F32.val 0) 1 1) (0 * 2 + 1)
      = applyWrites (fun _ => (0 : ℤ))
        (peakWrites (fun i => if i = 0 then F32.val 0 else F32.val 1) 1 1) (0 * 2 + 1) :=
  bucket_locality (fun _ => F32.val 0)
    (fun i => if i = 0 then F32.val 0 else F32.val 1)
    (fun _ => (0 : ℤ)) 1 1 0 (by norm_num)
    (by decide)

/-- C10: a NaN sample updates neither the running minimum nor the running
maximum (both comparisons are false); a bucket whose whole scan range is NaN
keeps the initial bounds minVal = 1.0, maxVal = −1.0 and stores the pair
(32767, −32767). -/
theorem nan_samples_ignored (smp : ℕ → F32) (len buckets b : ℕ)
    (hnan : ∀ i ∈ bucketReads len buckets b, smp i = F32.nan) :
    (∀ p : F32 × F32, ∀ i ∈ bucketReads len buckets b, scanStep smp p i = p) ∧
    bucketMinMax smp len buckets b = (F32.val 1, F32.val (-1)) ∧
    bucketWrites smp len buckets b = [(b * 2, 32767), (b * 2 + 1, -32767)] := by
  have hmm : bucketMinMax smp len buckets b = (F32.val 1, F32.val (-1)) :=
    foldl_scanStep_nan smp _ hnan _
  refine ⟨fun p i hi => scanStep_nan smp p i (hnan i hi), hmm, ?_⟩
  have h1 : toInt16 (clamp16 (scaleCast 32768 (F32.val 1))) = 32767 := by decide
  have h2 : toInt16 (clamp16 (scaleCast 32767 (F32.val (-1)))) = -32767 := by decide
  rw [bucketWrites.eq_def, hmm]
  simp only []
  rw [h1, h2]

/-- C10 witness: a single all-NaN bucket. -/
theorem nan_samples_ignored_witness :
    (∀ p : F32 × F32, ∀ i ∈ bucketReads 1 1 0, scanStep (fun _ => F32.nan) p i = p) ∧
    bucketMinMax (fun _ => F32.nan) 1 1 0 = (F32.val 1, F32.val (-1)) ∧
    bucketWrites (fun _ => F32.nan) 1 1 0 = [(0 * 2, 32767), (0 * 2 + 1, -32767)] :=
  nan_samples_ignored (fun _ => F32.nan) 1 1 0 (fun _ _ => rfl)


/-! ## Helper lemmas: the stored pair under clamping -/

/-- C4 counterexample: the claim's exact formula
`round-toward-zero(maxVal * 32767.0)` ignores the `float` rounding of the
product.  For the single sample `32769 / 2^30` (the value of
`(float)(1.0f / 32767.0f)`, about `3.0518509e-05`) with `len = buckets = 1`,
the bucket's `maxVal` is that sample, the exact formula gives
`clamp(trunc(maxVal * 32767)) = clamp(trunc(1 - 2^-30)) = 0`, but the program
rounds `maxVal * 32767.0f` to binary32 — obtaining exactly `1.0f` — and
stores `1`. -/
theorem compute_peaks_scale_clamp_store_cex :
    bucketMinMax (fun _ => F32.val (mkRat 32769 1073741824)) 1 1 0
      = (F32.val (mkRat 32769 1073741824), F32.val (mkRat 32769 1073741824)) ∧
    applyWrites (fun _ => 0)
      (peakWrites (fun _ => F32.val (mkRat 32769 1073741824)) 1 1) 1 = 1 ∧
    clamp16 (ratTrunc (mkRat 32769 1073741824 * 32767)) = 0 := by
  refine ⟨by decide, by decide, ?_⟩
  rw [show (mkRat 32769 1073741824 * 32767 : ℚ)
      = mulQ (mkRat 32769 1073741824) 32767 from (mulQ_eq _ _).symm,
    ← qtrunc_eq]
  decide

/-- C4 (corrected): for every valid call and every bucket `b`, the running
bounds are exact rationals `(qm, qx)` and the two consecutive entries the
bucket stores are `clamp₁₆(trunc(fl32(qm * 32768)))` at index `b * 2` and
`clamp₁₆(trunc(fl32(qx * 32767)))` at index `b * 2 + 1` — i.e. the claimed
pipeline with the product first rounded to binary32 (which the claim's exact
`round-toward-zero(minVal * 32768.0)` formula elides), then truncated toward
zero, clamped into `[-32768, 32767]`, and stored min-first. -/
theorem compute_peaks_scale_clamp_store (smp : ℕ → F32) (out : ℕ → ℤ)
    (len buckets b : ℕ) (hb : b < buckets) :
    ∃ qm qx : ℚ,
      bucketMinMax smp len buckets b = (F32.val qm, F32.val qx) ∧
      applyWrites out (peakWrites smp len buckets) (b * 2)
        = clamp16 (ratTrunc (roundF32 (qm * 32768))) ∧
      applyWrites out (peakWrites smp len buckets) (b * 2 + 1)
        = clamp16 (ratTrunc (roundF32 (qx * 32767))) := by
  obtain ⟨qm, qx, hmm, h1, h2, h3⟩ := bucketMinMax_bounds smp len buckets b
  refine ⟨qm, qx, hmm, ?_, ?_⟩
  · rw [final_at_min out smp len buckets b hb, hmm]
    show toInt16 (clamp16 (scaleCast 32768 (F32.val qm))) = _
    rw [scaleCast_val, toInt16_clamp16]
    norm_num
  · rw [final_at_max out smp len buckets b hb, hmm]
    show toInt16 (clamp16 (scaleCast 32767 (F32.val qx))) = _
    rw [scaleCast_val, toInt16_clamp16]
    norm_num

/-- C4 witness: instantiation at a length-1 call on the zero sample. -/
theorem compute_peaks_scale_clamp_store_witness :
    0 < 1 ∧
    (∃ qm qx : ℚ,
      bucketMinMax (fun _ => F32.val 0) 1 1 0 = (F32.val qm, F32.val qx) ∧
      applyWrites (fun _ => 0) (peakWrites (fun _ => F32.val 0) 1 1) (0 * 2)
        = clamp16 (ratTrunc (roundF32 (qm * 32768))) ∧
      applyWrites (fun _ => 0) (peakWrites (fun _ => F32.val 0) 1 1) (0 * 2 + 1)
        = clamp16 (ratTrunc (roundF32 (qx * 32767)))) :=
  ⟨by decide, compute_peaks_scale_clamp_store (fun _ => F32.val 0) (fun _ => 0)
    1 1 0 (by decide)⟩

